import Mathlib

/-!
Verification of the eudamed2firstbase structural validator
(src/firstbase_validation.py) against its specification.

The Python source is shallowly embedded below.  JSON values are the
inductive `JsonVal`; Python dicts are association lists iterated in
insertion order (Python dicts have unique keys, which `json.load`
guarantees).  Python truthiness of strings/options/lists is modelled
explicitly (`optTruthy`, `enumTruthy`).  Python `isinstance` is modelled
including the fact that `bool` is a subclass of `int`.  Floats are
modelled with integral payloads only; no property here depends on
fractional values.  The regex digit class is modelled as ASCII 0-9,
which is what the validator ever produces in paths.
-/

/-- A parsed JSON value, as produced by Python json.load. -/
inductive JsonVal where
  | null : JsonVal
  | bool (b : Bool) : JsonVal
  | int (n : Int) : JsonVal
  | float (q : Int) : JsonVal
  | str (s : String) : JsonVal
  | arr (items : List JsonVal) : JsonVal
  | obj (fields : List (String × JsonVal)) : JsonVal

/-- First-match lookup in an association list (Python dict `get`). -/
def lookupFirst {α : Type} (l : List (String × α)) (k : String) : Option α :=
  (l.find? (fun p => p.1 == k)).map (fun p => p.2)

/-- Key membership in an association list (Python `k in d`). -/
def containsKey {α : Type} (l : List (String × α)) (k : String) : Bool :=
  (l.map Prod.fst).contains k

mutual

/-- Python equality on JSON values: numeric kinds (bool/int/float) compare
by value since bool is a subclass of int; lists elementwise; dicts by key
lookup (keys are unique in parsed JSON). -/
def pyEq : JsonVal → JsonVal → Bool
  | JsonVal.null, JsonVal.null => true
  | JsonVal.bool a, JsonVal.bool b => a == b
  | JsonVal.bool a, JsonVal.int m => (if a then (1 : Int) else 0) == m
  | JsonVal.bool a, JsonVal.float m => (if a then (1 : Int) else 0) == m
  | JsonVal.int n, JsonVal.bool b => n == (if b then (1 : Int) else 0)
  | JsonVal.int n, JsonVal.int m => n == m
  | JsonVal.int n, JsonVal.float m => n == m
  | JsonVal.float n, JsonVal.bool b => n == (if b then (1 : Int) else 0)
  | JsonVal.float n, JsonVal.int m => n == m
  | JsonVal.float n, JsonVal.float m => n == m
  | JsonVal.str a, JsonVal.str b => a == b
  | JsonVal.arr a, JsonVal.arr b => pyEqList a b
  | JsonVal.obj a, JsonVal.obj b => a.length == b.length && pyEqFields a b
  | _, _ => false

def pyEqList : List JsonVal → List JsonVal → Bool
  | [], [] => true
  | a :: as', b :: bs => pyEq a b && pyEqList as' bs
  | _, _ => false

def pyEqFields : List (String × JsonVal) → List (String × JsonVal) → Bool
  | [], _ => true
  | (k, v) :: rest, b =>
    (match lookupFirst b k with
     | some w => pyEq v w
     | none => false) && pyEqFields rest b

end

/-- Python list membership `x in l` (element equality). -/
def pyMem (v : JsonVal) (l : List JsonVal) : Bool :=
  l.any (fun e => pyEq v e)

mutual

/-- Python `str`/`repr` rendering of JSON values, as used by f-strings in
the issue messages.  String contents are assumed to need no escaping. -/
def pyRepr : JsonVal → String
  | JsonVal.null => "None"
  | JsonVal.bool b => if b then "True" else "False"
  | JsonVal.int n => toString n
  | JsonVal.float q => toString q ++ ".0"
  | JsonVal.str s => "\x27" ++ s ++ "\x27"
  | JsonVal.arr items => "[" ++ pyReprList items ++ "]"
  | JsonVal.obj fields => "\x7b" ++ pyReprFields fields ++ "\x7d"

def pyReprList : List JsonVal → String
  | [] => ""
  | [v] => pyRepr v
  | v :: rest => pyRepr v ++ ", " ++ pyReprList rest

def pyReprFields : List (String × JsonVal) → String
  | [] => ""
  | [(k, v)] => "\x27" ++ k ++ "\x27: " ++ pyRepr v
  | (k, v) :: rest => "\x27" ++ k ++ "\x27: " ++ pyRepr v ++ ", " ++ pyReprFields rest

end

/-- Python `str(v)` as interpolated by an f-string. -/
def pyStr : JsonVal → String
  | JsonVal.str s => s
  | v => pyRepr v

/-- Python `str(list)` of a JSON list value. -/
def pyReprOfList (l : List JsonVal) : String :=
  "[" ++ pyReprList l ++ "]"

/-- True exactly on the JSON null value. -/
def isNullV : JsonVal → Bool
  | JsonVal.null => true
  | _ => false

/-- True exactly on object-shaped values (Python isinstance(v, dict)). -/
def isDictV : JsonVal → Bool
  | JsonVal.obj _ => true
  | _ => false

/-- Python type(v).__name__ for parsed JSON values. -/
def typeName : JsonVal → String
  | JsonVal.null => "NoneType"
  | JsonVal.bool _ => "bool"
  | JsonVal.int _ => "int"
  | JsonVal.float _ => "float"
  | JsonVal.str _ => "str"
  | JsonVal.arr _ => "list"
  | JsonVal.obj _ => "dict"

/-- The short name of a dotted definition name: the segment after the last
dot (Python name.split(".")[-1]). -/
def shortNameStr (s : String) : String :=
  String.mk ((s.data.reverse.takeWhile (fun c => !(c == '.'))).reverse)

/-- Whether pat occurs at the start of the list. -/
def beginsWith : List Char → List Char → Bool
  | [], _ => true
  | _ :: _, [] => false
  | p :: ps, c :: cs => p == c && beginsWith ps cs

/-- Whether pat occurs contiguously anywhere in the list. -/
def hasInfix (pat : List Char) : List Char → Bool
  | [] => beginsWith pat []
  | c :: rest => beginsWith pat (c :: rest) || hasInfix pat rest

/-- Whether the name contains the preferred-namespace marker
(Python substring test: "Standard" in name). -/
def containsStd (s : String) : Bool :=
  hasInfix "Standard".data s.data

/-- Python name.replace("#/definitions/", "") on the character list:
scan left to right, drop every occurrence of the pointer prefix. -/
def stripRefChars : List Char → List Char
  | '#' :: '/' :: 'd' :: 'e' :: 'f' :: 'i' :: 'n' :: 'i' :: 't' :: 'i' :: 'o' :: 'n' :: 's' :: '/' :: rest =>
    stripRefChars rest
  | c :: rest => c :: stripRefChars rest
  | [] => []

/-- Strip the reference-pointer prefix from a $ref string. -/
def stripRef (s : String) : String :=
  String.mk (stripRefChars s.data)

/-- A property specification: the fields of a Swagger property object the
validator reads.  itemsRef models prop_spec.get("items", given).get("$ref"). -/
structure PropSpec where
  type : Option String := none
  enum : Option (List JsonVal) := none
  ref : Option String := none
  itemsRef : Option String := none

/-- A schema definition: its properties mapping and optional enum list. -/
structure Defn where
  properties : List (String × PropSpec) := []
  enum : Option (List JsonVal) := none

/-- The validator state: the schema definitions in iteration order. -/
structure Validator where
  defs : List (String × Defn)

/-- Python truthiness filter for an optional string: None and the empty
string are falsy. -/
def optTruthy : Option String → Option String
  | none => none
  | some s => if s == "" then none else some s

/-- Python truthiness filter for an optional enum list: None and the empty
list are falsy. -/
def enumTruthy : Option (List JsonVal) → Option (List JsonVal)
  | some (e :: es) => some (e :: es)
  | _ => none

/-- The loop body of build_schema_index: one iteration over a definition
name performs the dict assignment index[short] = name exactly when the
name contains "Standard" or the short name is not in the index yet. -/
def insertStep (index : List (String × String)) (nd : String × Defn) :
    List (String × String) :=
  let short := shortNameStr nd.1
  if containsStd nd.1 || !(containsKey index short) then index ++ [(short, nd.1)]
  else index

/-- build_schema_index: short-name to full-name lookup, preferring Standard
entities.  The index is kept as the ordered list of dict assignments;
lookups take the last assignment for a key. -/
def build_schema_index (defs : List (String × Defn)) : List (String × String) :=
  defs.foldl insertStep []

/-- Dictionary lookup in the assignment list: the last assignment wins. -/
def indexGet (index : List (String × String)) (k : String) : Option String :=
  (index.reverse.find? (fun p => p.1 == k)).map (fun p => p.2)

/-- Validator.resolve: strip the pointer prefix; exact full-name match wins,
otherwise look the short name up in the index. -/
def resolve (vr : Validator) (refOrName : String) : Option String :=
  let name := stripRef refOrName
  if containsKey vr.defs name then some name
  else indexGet (build_schema_index vr.defs) (shortNameStr name)

/-- Validator.get_props. -/
def get_props (vr : Validator) (defName : String) : List (String × PropSpec) :=
  match lookupFirst vr.defs defName with
  | some d => d.properties
  | none => []

/-- Validator.get_enum. -/
def get_enum (vr : Validator) (defName : String) : Option (List JsonVal) :=
  match lookupFirst vr.defs defName with
  | some d => d.enum
  | none => none

/-- One reported discrepancy. -/
structure Issue where
  category : String
  path : String
  message : String

/-- The resolution performed at the top of Validator.validate:
resolved = self.resolve(def_name) if def_name not in self.defs else def_name. -/
def resolvedName (vr : Validator) (defName : String) : Option String :=
  if containsKey vr.defs defName then some defName else resolve vr defName

/-- Validator._check_type: null is exempt; a missing, empty or unmapped
declared type is exempt; otherwise compare the runtime shape, where the
boolean-specific branch mirrors the source even though Python bool passes
isinstance against int. -/
def check_type (val : JsonVal) (ps : PropSpec) (path : String) : List Issue :=
  if isNullV val then []
  else
    match ps.type with
    | none => []
    | some expected =>
      if expected == "" then []
      else
        match
          (if expected == "string" then
             some (match val with | JsonVal.str _ => true | _ => false)
           else if expected == "boolean" then
             some (match val with | JsonVal.bool _ => true | _ => false)
           else if expected == "integer" then
             some (match val with | JsonVal.int _ => true | JsonVal.bool _ => true | _ => false)
           else if expected == "number" then
             some (match val with
                   | JsonVal.int _ => true | JsonVal.float _ => true
                   | JsonVal.bool _ => true | _ => false)
           else if expected == "array" then
             some (match val with | JsonVal.arr _ => true | _ => false)
           else if expected == "object" then
             some (match val with | JsonVal.obj _ => true | _ => false)
           else none) with
        | none => []
        | some true => []
        | some false =>
          if (expected == "integer" || expected == "number")
              && (match val with | JsonVal.bool _ => true | _ => false) then
            [Issue.mk "TYPE_MISMATCH" path ("expected " ++ expected ++ ", got boolean")]
          else
            [Issue.mk "TYPE_MISMATCH" path
              ("expected " ++ expected ++ ", got " ++ typeName val)]

/-- The enum-violation message with conditional ellipsis, as built in the
inline-enum and wrapper-Value branches. -/
def enumMsgCond (v : JsonVal) (es : List JsonVal) : String :=
  "\x27" ++ pyStr v ++ "\x27 not in " ++ pyReprOfList (es.take 6)
    ++ (if 6 < es.length then "..." else "")

/-- The enum-violation message of the array-items branch: the ellipsis is
appended unconditionally in the source. -/
def enumMsgDots (v : JsonVal) (es : List JsonVal) : String :=
  "\x27" ++ pyStr v ++ "\x27 not in " ++ pyReprOfList (es.take 6) ++ "..."

/-- The inline-enum check of a field value (source lines 125-129). -/
def inlineEnumCheck (ps : PropSpec) (val : JsonVal) (fullPath : String) : List Issue :=
  match ps.enum with
  | none => []
  | some es =>
    if isNullV val then []
    else if pyMem val es then []
    else [Issue.mk "INVALID_ENUM" fullPath (enumMsgCond val es)]

/-- The wrapper-Value check against a referenced enum definition
(source lines 137-142): read the conventional Value key of the wrapper
object; absent and null merge to null. -/
def wrapperValueCheck (wf : List (String × JsonVal)) (es : List JsonVal)
    (fullPath : String) : List Issue :=
  let inner := (lookupFirst wf "Value").getD JsonVal.null
  if isNullV inner then []
  else if pyMem inner es then []
  else [Issue.mk "INVALID_ENUM" (fullPath ++ ".Value") (enumMsgCond inner es)]

/-- The per-element check of the array-items branch against a referenced
enum definition (source lines 155-160). -/
def arrayElemCheck (item : JsonVal) (es : List JsonVal) (itemPath : String) : List Issue :=
  let inner :=
    match item with
    | JsonVal.obj fs => (lookupFirst fs "Value").getD JsonVal.null
    | _ => item
  if isNullV inner then []
  else if pyMem inner es then []
  else [Issue.mk "INVALID_ENUM" itemPath (enumMsgDots inner es)]

mutual

/-- Validator.validate (source lines 96-164): resolve the definition name,
report SCHEMA_NOT_FOUND on a falsy resolution, skip non-object values,
otherwise walk the fields. -/
def validate (vr : Validator) (v : JsonVal) (defName : String) (path : String) :
    List Issue :=
  match optTruthy (resolvedName vr defName) with
  | none => [Issue.mk "SCHEMA_NOT_FOUND" path ("\x27" ++ defName ++ "\x27 not in spec")]
  | some r =>
    match v with
    | JsonVal.obj fields => validateFields vr r (get_props vr r) fields path
    | _ => []
termination_by (sizeOf v, 0)

/-- The field loop of Validator.validate (source lines 109-162). -/
def validateFields (vr : Validator) (r : String) (props : List (String × PropSpec))
    (fields : List (String × JsonVal)) (path : String) : List Issue :=
  match fields with
  | [] => []
  | (key, val) :: rest =>
    let fullPath := if path == "" then key else path ++ "." ++ key
    (match props.find? (fun p => p.1 == key) with
     | none =>
       [Issue.mk "UNKNOWN_FIELD" fullPath
         ("not in \x27" ++ shortNameStr r ++ "\x27 (has "
           ++ toString ((props.map Prod.fst).dedup.length) ++ " properties)")]
     | some pr =>
       check_type val pr.2 fullPath
         ++ inlineEnumCheck pr.2 val fullPath
         ++ refOrArray vr pr.2 val fullPath)
      ++ validateFields vr r props rest path
termination_by (sizeOf fields, 2)

/-- The reference and array branches for one declared field
(source lines 131-162): an elif in the source, so the array branch runs
only when the reference-into-dict branch does not apply. -/
def refOrArray (vr : Validator) (ps : PropSpec) (val : JsonVal) (fullPath : String) :
    List Issue :=
  match ps.ref, val with
  | some rs, JsonVal.obj wf =>
    (match optTruthy (resolve vr rs) with
     | none => []
     | some cd =>
       match enumTruthy (get_enum vr cd) with
       | some es => wrapperValueCheck wf es fullPath
       | none => validate vr (JsonVal.obj wf) cd fullPath)
  | _, JsonVal.arr items =>
    (match ps.type with
     | some t =>
       if t == "array" then
         match ps.itemsRef with
         | none => []
         | some ir =>
           match optTruthy (resolve vr ir) with
           | none => []
           | some cd => validateItems vr cd (enumTruthy (get_enum vr cd)) items 0 fullPath
       else []
     | none => [])
  | _, _ => []
termination_by (sizeOf val, 1)

/-- The enumerate loop over array items (source lines 153-162). -/
def validateItems (vr : Validator) (cd : String) (enumOpt : Option (List JsonVal))
    (items : List JsonVal) (i : Nat) (fullPath : String) : List Issue :=
  match items with
  | [] => []
  | item :: rest =>
    let itemPath := fullPath ++ "[" ++ toString i ++ "]"
    (match enumOpt with
     | some es => arrayElemCheck item es itemPath
     | none =>
       match item with
       | JsonVal.obj ofs => validate vr (JsonVal.obj ofs) cd itemPath
       | _ => [])
      ++ validateItems vr cd enumOpt rest (i + 1) fullPath
termination_by (sizeOf items, 2)

end

mutual

/-- Nesting depth of a JSON value: containers add one level. -/
def jdepth : JsonVal → Nat
  | JsonVal.arr items => 1 + jdepthList items
  | JsonVal.obj fields => 1 + jdepthFields fields
  | _ => 0

def jdepthList : List JsonVal → Nat
  | [] => 0
  | v :: vs => max (jdepth v) (jdepthList vs)

def jdepthFields : List (String × JsonVal) → Nat
  | [] => 0
  | (_, v) :: fs => max (jdepth v) (jdepthFields fs)

end

mutual

/-- validate with an explicit recursion budget: one unit of fuel is spent
per nested validate frame, and exhaustion returns none.  Used to show the
recursion depth of validate is bounded by the document depth alone,
whatever the schema contains. -/
def validateFuel (vr : Validator) (fuel : Nat) (v : JsonVal) (defName : String)
    (path : String) : Option (List Issue) :=
  match fuel with
  | 0 => none
  | Nat.succ f =>
    match optTruthy (resolvedName vr defName) with
    | none => some [Issue.mk "SCHEMA_NOT_FOUND" path ("\x27" ++ defName ++ "\x27 not in spec")]
    | some r =>
      match v with
      | JsonVal.obj fields => validateFieldsFuel vr f r (get_props vr r) fields path
      | _ => some []
termination_by (fuel, sizeOf v, 0)

def validateFieldsFuel (vr : Validator) (f : Nat) (r : String)
    (props : List (String × PropSpec)) (fields : List (String × JsonVal))
    (path : String) : Option (List Issue) :=
  match fields with
  | [] => some []
  | (key, val) :: rest =>
    let fullPath := if path == "" then key else path ++ "." ++ key
    match
      (match props.find? (fun p => p.1 == key) with
       | none =>
         some [Issue.mk "UNKNOWN_FIELD" fullPath
           ("not in \x27" ++ shortNameStr r ++ "\x27 (has "
             ++ toString ((props.map Prod.fst).dedup.length) ++ " properties)")]
       | some pr =>
         match refOrArrayFuel vr f pr.2 val fullPath with
         | none => none
         | some x =>
           some (check_type val pr.2 fullPath ++ inlineEnumCheck pr.2 val fullPath ++ x)),
      validateFieldsFuel vr f r props rest path with
    | some a, some b => some (a ++ b)
    | _, _ => none
termination_by (f, sizeOf fields, 2)

def refOrArrayFuel (vr : Validator) (f : Nat) (ps : PropSpec) (val : JsonVal)
    (fullPath : String) : Option (List Issue) :=
  match ps.ref, val with
  | some rs, JsonVal.obj wf =>
    (match optTruthy (resolve vr rs) with
     | none => some []
     | some cd =>
       match enumTruthy (get_enum vr cd) with
       | some es => some (wrapperValueCheck wf es fullPath)
       | none => validateFuel vr f (JsonVal.obj wf) cd fullPath)
  | _, JsonVal.arr items =>
    (match ps.type with
     | some t =>
       if t == "array" then
         match ps.itemsRef with
         | none => some []
         | some ir =>
           match optTruthy (resolve vr ir) with
           | none => some []
           | some cd => validateItemsFuel vr f cd (enumTruthy (get_enum vr cd)) items 0 fullPath
       else some []
     | none => some [])
  | _, _ => some []
termination_by (f, sizeOf val, 1)

def validateItemsFuel (vr : Validator) (f : Nat) (cd : String)
    (enumOpt : Option (List JsonVal)) (items : List JsonVal) (i : Nat)
    (fullPath : String) : Option (List Issue) :=
  match items with
  | [] => some []
  | item :: rest =>
    let itemPath := fullPath ++ "[" ++ toString i ++ "]"
    match
      (match enumOpt with
       | some es => some (arrayElemCheck item es itemPath)
       | none =>
         match item with
         | JsonVal.obj ofs => validateFuel vr f (JsonVal.obj ofs) cd itemPath
         | _ => some []),
      validateItemsFuel vr f cd enumOpt rest (i + 1) fullPath with
    | some a, some b => some (a ++ b)
    | _, _ => none
termination_by (f, sizeOf items, 2)

end

/-- re.sub of the pattern backslash-bracket digits backslash-bracket with
the wildcard, on the character list: at each opening bracket, a nonempty
digit run immediately closed by a bracket is replaced; otherwise scanning
continues one character on. -/
def normSub (l : List Char) : List Char :=
  match l with
  | [] => []
  | c :: rest =>
    if c == '[' then
      if (rest.takeWhile Char.isDigit).isEmpty then '[' :: normSub rest
      else if (rest.dropWhile Char.isDigit).head? == some ']' then
        '[' :: '*' :: ']' :: normSub (rest.dropWhile Char.isDigit).tail
      else '[' :: normSub rest
    else c :: normSub rest
termination_by l.length
decreasing_by
  · simp
  · have h1 := (List.dropWhile_sublist (l := rest) Char.isDigit).length_le
    simp [List.length_tail]
    omega
  · simp
  · simp

/-- Issue.normalized_path: every bracketed integer index in the path is
replaced by the wildcard marker. -/
def normalized_path (p : String) : String :=
  String.mk (normSub p.data)


/-- A small concrete validator used by the witness theorems. -/
def wVr : Validator :=
  Validator.mk
    [("NS.Standard.TradeItem",
       Defn.mk
         [("GTIN", PropSpec.mk (some "string") none none none),
          ("Qty", PropSpec.mk (some "integer") none none none),
          ("Status", PropSpec.mk none
            (some [JsonVal.str "ACTIVE", JsonVal.str "DISCONTINUED"]) none none),
          ("Brand", PropSpec.mk none none (some "BrandEnum") none),
          ("Children", PropSpec.mk (some "array") none none (some "ChildEnum"))]
         none),
     ("NS.BrandEnum", Defn.mk [] (some [JsonVal.str "ACME", JsonVal.str "OTHER"])),
     ("NS.ChildEnum", Defn.mk [] (some [JsonVal.str "X", JsonVal.str "Y"]))]

/-- One step of the lookup evolution for a fixed short name while the index
is built: the current definition name replaces the stored one exactly when
it contains the preferred-namespace marker or nothing is stored yet. -/
def stepS (cur : Option String) (name : String) : Option String :=
  if containsStd name || cur.isNone then some name else cur

/-- Modelled from the claim text of the Schema Index insertion rule, for
comparison with build_schema_index: insert only when no entry exists yet,
or when the existing entry lacks the Standard marker while the current
name contains it. -/
def build_schema_index_claim (defs : List (String × Defn)) : List (String × String) :=
  defs.foldl
    (fun index nd =>
      let short := shortNameStr nd.1
      match indexGet index short with
      | none => index ++ [(short, nd.1)]
      | some existing =>
        if !(containsStd existing) && containsStd nd.1 then index ++ [(short, nd.1)]
        else index)
    []

/-- Two paths related by rewriting one bracketed nonempty integer index
into another, leaving everything else unchanged.  Chains of such steps
relate exactly the paths differing only in bracketed integer indices. -/
def IdxStep (p q : List Char) : Prop :=
  ∃ a d e b, d ≠ [] ∧ e ≠ [] ∧ (∀ x ∈ d, Char.isDigit x = true)
    ∧ (∀ x ∈ e, Char.isDigit x = true)
    ∧ p = a ++ '[' :: (d ++ ']' :: b) ∧ q = a ++ '[' :: (e ++ ']' :: b)

/-! ## Helper lemmas about the embedded validator -/

/-- Unfolding: a falsy resolution reports SCHEMA_NOT_FOUND. -/
theorem validate_eq_not_found (vr : Validator) (v : JsonVal) (dn path : String)
    (h : optTruthy (resolvedName vr dn) = none) :
    validate vr v dn path
      = [Issue.mk "SCHEMA_NOT_FOUND" path ("\x27" ++ dn ++ "\x27 not in spec")] := by
  rw [validate, h]

/-- Unfolding: a truthy resolution on an object value walks the fields. -/
theorem validate_eq_fields (vr : Validator) (fields : List (String × JsonVal))
    (dn path r : String) (h : optTruthy (resolvedName vr dn) = some r) :
    validate vr (JsonVal.obj fields) dn path
      = validateFields vr r (get_props vr r) fields path := by
  rw [validate, h]

/-- Unfolding: a truthy resolution on a non-object value checks nothing. -/
theorem validate_eq_nil (vr : Validator) (v : JsonVal) (dn path r : String)
    (h : optTruthy (resolvedName vr dn) = some r) (hv : isDictV v = false) :
    validate vr v dn path = [] := by
  rw [validate, h]
  cases v <;> simp_all [isDictV]

/-- Unfolding: the field loop on the empty field list. -/
theorem validateFields_nil (vr : Validator) (r : String)
    (props : List (String × PropSpec)) (path : String) :
    validateFields vr r props [] path = [] := by
  rw [validateFields]

/-- Unfolding: the field loop on an undeclared field. -/
theorem validateFields_cons_unknown (vr : Validator) (r : String)
    (props : List (String × PropSpec)) (key : String) (val : JsonVal)
    (rest : List (String × JsonVal)) (path : String)
    (h : props.find? (fun p => p.1 == key) = none) :
    validateFields vr r props ((key, val) :: rest) path
      = Issue.mk "UNKNOWN_FIELD" (if path == "" then key else path ++ "." ++ key)
          ("not in \x27" ++ shortNameStr r ++ "\x27 (has "
            ++ toString ((props.map Prod.fst).dedup.length) ++ " properties)")
        :: validateFields vr r props rest path := by
  rw [validateFields, h]
  rfl

/-- Unfolding: the field loop on a declared field. -/
theorem validateFields_cons_known (vr : Validator) (r : String)
    (props : List (String × PropSpec)) (key : String) (val : JsonVal)
    (rest : List (String × JsonVal)) (path : String) (pr : String × PropSpec)
    (h : props.find? (fun p => p.1 == key) = some pr) :
    validateFields vr r props ((key, val) :: rest) path
      = (check_type val pr.2 (if path == "" then key else path ++ "." ++ key)
          ++ inlineEnumCheck pr.2 val (if path == "" then key else path ++ "." ++ key)
          ++ refOrArray vr pr.2 val (if path == "" then key else path ++ "." ++ key))
        ++ validateFields vr r props rest path := by
  rw [validateFields, h]

/-- The field loop distributes over appended field lists. -/
theorem validateFields_append (vr : Validator) (r : String)
    (props : List (String × PropSpec)) (xs ys : List (String × JsonVal))
    (path : String) :
    validateFields vr r props (xs ++ ys) path
      = validateFields vr r props xs path ++ validateFields vr r props ys path := by
  induction xs with
  | nil => rw [validateFields_nil]; rfl
  | cons p rest ih =>
    obtain ⟨key, val⟩ := p
    cases h : props.find? (fun q => q.1 == key) with
    | none =>
      rw [List.cons_append, validateFields_cons_unknown vr r props key val _ path h,
        validateFields_cons_unknown vr r props key val rest path h, ih]
      rfl
    | some pr =>
      rw [List.cons_append, validateFields_cons_known vr r props key val _ path pr h,
        validateFields_cons_known vr r props key val rest path pr h, ih]
      simp [List.append_assoc]

/-- A key absent from an association list is never found by find?. -/
theorem find?_none_of_not_containsKey {α : Type} (props : List (String × α))
    (key : String) (h : containsKey props key = false) :
    props.find? (fun p => p.1 == key) = none := by
  induction props with
  | nil => rfl
  | cons p rest ih =>
    simp only [containsKey, List.map_cons, List.contains_cons, Bool.or_eq_false_iff] at h
    rw [List.find?_cons]
    have hb : (p.1 == key) = false := by
      cases hb2 : (p.1 == key)
      · rfl
      · exfalso
        have hk : (key == p.1) = true := by
          rw [beq_iff_eq] at hb2 ⊢
          exact hb2.symm
        rw [h.1] at hk
        exact Bool.false_ne_true hk
    rw [hb]
    exact ih h.2


/-! ## Claim theorems -/

/-- Claim C4: for every value and every definition name that neither exactly
matches a fully-qualified definition nor resolves through the short-name
index, validate returns exactly one SCHEMA_NOT_FOUND issue at the given
path, with no recursion and no other checks for that subtree. -/
theorem c4_schema_not_found (vr : Validator) (dn : String) (v : JsonVal) (path : String)
    (h1 : containsKey vr.defs dn = false) (h2 : resolve vr dn = none) :
    validate vr v dn path
      = [Issue.mk "SCHEMA_NOT_FOUND" path ("\x27" ++ dn ++ "\x27 not in spec")] := by
  apply validate_eq_not_found
  simp [resolvedName, h1, h2, optTruthy]

/-- Witness for C4 on a concrete schema and missing name. -/
theorem c4_schema_not_found_witness :
    validate wVr JsonVal.null "Nope" "TradeItem"
      = [Issue.mk "SCHEMA_NOT_FOUND" "TradeItem" ("\x27" ++ "Nope" ++ "\x27 not in spec")] :=
  c4_schema_not_found wVr "Nope" JsonVal.null "TradeItem" (by rfl) (by rfl)

/-- Claim C7: a non-object value at a definition boundary whose definition
name resolves successfully produces no issues at all. -/
theorem c7_non_object_unchecked (vr : Validator) (dn path r : String) (v : JsonVal)
    (h1 : optTruthy (resolvedName vr dn) = some r) (h2 : isDictV v = false) :
    validate vr v dn path = [] :=
  validate_eq_nil vr v dn path r h1 h2

/-- Witness for C7: a bare string where a resolvable definition is expected. -/
theorem c7_non_object_unchecked_witness :
    validate wVr (JsonVal.str "01234") "TradeItem" "TradeItem" = [] :=
  c7_non_object_unchecked wVr "TradeItem" "TradeItem" "NS.Standard.TradeItem"
    (JsonVal.str "01234") (by rfl) (by rfl)

/-- Claim C5: the null value never produces a TYPE_MISMATCH, whatever the
PropertySpec declares. -/
theorem c5_null_exempt (ps : PropSpec) (path : String) :
    check_type JsonVal.null ps path = [] := rfl

/-- Claim C1 (behaviour at the failing input): a boolean checked against a
declared integer or number type passes _check_type silently, because the
Python isinstance test already accepts bool as int, making the
boolean-specific TYPE_MISMATCH branch unreachable. -/
theorem c1_bool_passes_numeric_check :
    check_type (JsonVal.bool true) (PropSpec.mk (some "integer") none none none) "TradeItem.Qty" = []
    ∧ check_type (JsonVal.bool true) (PropSpec.mk (some "number") none none none) "TradeItem.Qty" = []
    ∧ check_type (JsonVal.bool false) (PropSpec.mk (some "integer") none none none) "TradeItem.Qty" = []
    ∧ check_type (JsonVal.bool false) (PropSpec.mk (some "number") none none none) "TradeItem.Qty" = [] := by
  refine ⟨rfl, rfl, rfl, rfl⟩

/-- Claim C3: a field whose name is not among the resolved definition
declared properties contributes exactly one UNKNOWN_FIELD issue at the
field path, with no type check, no enum check and no recursion into the
field value, and independently of the surrounding fields. -/
theorem c3_unknown_field (vr : Validator) (dn path r key : String) (val : JsonVal)
    (pre post : List (String × JsonVal))
    (h1 : optTruthy (resolvedName vr dn) = some r)
    (h2 : containsKey (get_props vr r) key = false) :
    validate vr (JsonVal.obj (pre ++ (key, val) :: post)) dn path
      = validate vr (JsonVal.obj pre) dn path
        ++ Issue.mk "UNKNOWN_FIELD" (if path == "" then key else path ++ "." ++ key)
             ("not in \x27" ++ shortNameStr r ++ "\x27 (has "
               ++ toString (((get_props vr r).map Prod.fst).dedup.length) ++ " properties)")
          :: validate vr (JsonVal.obj post) dn path := by
  rw [validate_eq_fields vr _ dn path r h1, validate_eq_fields vr pre dn path r h1,
    validate_eq_fields vr post dn path r h1, validateFields_append,
    validateFields_cons_unknown vr r _ key val post path
      (find?_none_of_not_containsKey _ key h2)]

/-- Witness for C3: an undeclared field between two declared ones. -/
theorem c3_unknown_field_witness :
    validate wVr
        (JsonVal.obj [("GTIN", JsonVal.str "123"), ("Bogus", JsonVal.int 1),
          ("Qty", JsonVal.int 2)])
        "NS.Standard.TradeItem" "TradeItem"
      = validate wVr (JsonVal.obj [("GTIN", JsonVal.str "123")]) "NS.Standard.TradeItem" "TradeItem"
        ++ Issue.mk "UNKNOWN_FIELD"
             (if "TradeItem" == "" then "Bogus" else "TradeItem" ++ "." ++ "Bogus")
             ("not in \x27" ++ shortNameStr "NS.Standard.TradeItem" ++ "\x27 (has "
               ++ toString (((get_props wVr "NS.Standard.TradeItem").map Prod.fst).dedup.length)
               ++ " properties)")
          :: validate wVr (JsonVal.obj [("Qty", JsonVal.int 2)]) "NS.Standard.TradeItem" "TradeItem" :=
  c3_unknown_field wVr "NS.Standard.TradeItem" "TradeItem" "NS.Standard.TradeItem" "Bogus"
    (JsonVal.int 1) [("GTIN", JsonVal.str "123")] [("Qty", JsonVal.int 2)] (by rfl) (by rfl)

/-- Unfolding: the reference branch on an object value whose referenced
definition is a (truthy) enum runs the wrapper-Value check only. -/
theorem refOrArray_ref_enum (vr : Validator) (ps : PropSpec)
    (wf : List (String × JsonVal)) (fp rs cd : String) (es : List JsonVal)
    (h3 : ps.ref = some rs) (h4 : optTruthy (resolve vr rs) = some cd)
    (h5 : enumTruthy (get_enum vr cd) = some es) :
    refOrArray vr ps (JsonVal.obj wf) fp = wrapperValueCheck wf es fp := by
  rw [refOrArray.eq_1 vr ps fp rs wf h3]
  simp only [h4, h5]

/-- Claim C6: for a declared field carrying a reference and holding an
object, when the reference resolves to an enum definition the field value
is treated as a wrapper: its Value entry, if present, non-null and not a
member, yields exactly one INVALID_ENUM at the path extended by .Value,
and otherwise nothing; no recursion into the wrapper occurs. -/
theorem c6_wrapper_value_enum (vr : Validator) (dn path r key rs cd : String)
    (pre post wf : List (String × JsonVal)) (pr : String × PropSpec)
    (es : List JsonVal)
    (h1 : optTruthy (resolvedName vr dn) = some r)
    (h2 : (get_props vr r).find? (fun p => p.1 == key) = some pr)
    (h3 : pr.2.ref = some rs)
    (h4 : optTruthy (resolve vr rs) = some cd)
    (h5 : enumTruthy (get_enum vr cd) = some es) :
    validate vr (JsonVal.obj (pre ++ (key, JsonVal.obj wf) :: post)) dn path
      = validate vr (JsonVal.obj pre) dn path
        ++ (check_type (JsonVal.obj wf) pr.2 (if path == "" then key else path ++ "." ++ key)
            ++ inlineEnumCheck pr.2 (JsonVal.obj wf) (if path == "" then key else path ++ "." ++ key)
            ++ (if isNullV ((lookupFirst wf "Value").getD JsonVal.null) then []
                else if pyMem ((lookupFirst wf "Value").getD JsonVal.null) es then []
                else [Issue.mk "INVALID_ENUM"
                  ((if path == "" then key else path ++ "." ++ key) ++ ".Value")
                  (enumMsgCond ((lookupFirst wf "Value").getD JsonVal.null) es)]))
        ++ validate vr (JsonVal.obj post) dn path := by
  rw [validate_eq_fields vr _ dn path r h1, validate_eq_fields vr pre dn path r h1,
    validate_eq_fields vr post dn path r h1, validateFields_append,
    validateFields_cons_known vr r _ key (JsonVal.obj wf) post path pr h2,
    refOrArray_ref_enum vr pr.2 wf _ rs cd es h3 h4 h5, wrapperValueCheck]
  simp [List.append_assoc]

/-- Witness for C6: a Brand wrapper holding a scalar outside the enum. -/
theorem c6_wrapper_value_enum_witness :
    validate wVr
        (JsonVal.obj [("Brand", JsonVal.obj [("Value", JsonVal.str "NOPE")])])
        "NS.Standard.TradeItem" "TradeItem"
      = validate wVr (JsonVal.obj []) "NS.Standard.TradeItem" "TradeItem"
        ++ (check_type (JsonVal.obj [("Value", JsonVal.str "NOPE")])
              (PropSpec.mk none none (some "BrandEnum") none)
              (if "TradeItem" == "" then "Brand" else "TradeItem" ++ "." ++ "Brand")
            ++ inlineEnumCheck (PropSpec.mk none none (some "BrandEnum") none)
              (JsonVal.obj [("Value", JsonVal.str "NOPE")])
              (if "TradeItem" == "" then "Brand" else "TradeItem" ++ "." ++ "Brand")
            ++ (if isNullV ((lookupFirst [("Value", JsonVal.str "NOPE")] "Value").getD JsonVal.null)
                then []
                else if pyMem ((lookupFirst [("Value", JsonVal.str "NOPE")] "Value").getD JsonVal.null)
                    [JsonVal.str "ACME", JsonVal.str "OTHER"] then []
                else [Issue.mk "INVALID_ENUM"
                  ((if "TradeItem" == "" then "Brand" else "TradeItem" ++ "." ++ "Brand") ++ ".Value")
                  (enumMsgCond
                    ((lookupFirst [("Value", JsonVal.str "NOPE")] "Value").getD JsonVal.null)
                    [JsonVal.str "ACME", JsonVal.str "OTHER"])]))
        ++ validate wVr (JsonVal.obj []) "NS.Standard.TradeItem" "TradeItem" := by
  have h := c6_wrapper_value_enum wVr "NS.Standard.TradeItem" "TradeItem"
    "NS.Standard.TradeItem" "Brand" "BrandEnum" "NS.BrandEnum"
    [] [] [("Value", JsonVal.str "NOPE")]
    ("Brand", PropSpec.mk none none (some "BrandEnum") none)
    [JsonVal.str "ACME", JsonVal.str "OTHER"]
    (by rfl) (by rfl) (by rfl) (by rfl) (by rfl)
  exact h

/-- String append acts as list append on the underlying characters. -/
theorem strData_append (a b : String) : (a ++ b).data = a.data ++ b.data := by
  cases a; cases b; rfl

/-- The rendered list of allowed values always ends with a closing bracket. -/
theorem getLast?_pyReprOfList (c : List JsonVal) :
    (pyReprOfList c).data.getLast? = some ']' := by
  rw [pyReprOfList, strData_append]
  rw [List.getLast?_append_of_ne_nil _ (by decide)]
  rfl

/-- A string whose last character is not a dot does not end in the
ellipsis marker. -/
theorem not_dots_of_getLast_ne (s : String) (h : s.data.getLast? ≠ some '.') :
    ¬∃ p0 : String, s = p0 ++ "..." := by
  rintro ⟨p0, rfl⟩
  apply h
  rw [strData_append]
  rw [List.getLast?_append_of_ne_nil _ (by decide)]
  rfl

/-- With at most six allowed values the conditional message ends with the
closing bracket of the rendered list. -/
theorem enumMsgCond_getLast (v : JsonVal) (es : List JsonVal) (h : es.length ≤ 6) :
    (enumMsgCond v es).data.getLast? = some ']' := by
  rw [enumMsgCond, if_neg (Nat.not_lt.mpr h)]
  rw [strData_append]
  rw [show ("" : String).data = [] from rfl, List.append_nil]
  rw [strData_append]
  rw [List.getLast?_append_of_ne_nil _ (by
    intro h0
    have h1 := getLast?_pyReprOfList (es.take 6)
    rw [h0] at h1
    exact Option.noConfusion h1)]
  exact getLast?_pyReprOfList _

/-- Claim C10: every INVALID_ENUM issue emitted by the array-items branch
carries a message ending in the ellipsis marker unconditionally, while the
inline-enum and wrapper-Value branches never end the message with the
marker when the enum has at most six values. -/
theorem c10_array_ellipsis_unconditional :
    (∀ (item : JsonVal) (es : List JsonVal) (ip : String) (i : Issue),
        i ∈ arrayElemCheck item es ip → ∃ p0 : String, i.message = p0 ++ "...")
    ∧ (∀ (ps : PropSpec) (val : JsonVal) (fp : String) (es : List JsonVal) (i : Issue),
        ps.enum = some es → es.length ≤ 6 → i ∈ inlineEnumCheck ps val fp →
          ¬∃ p0 : String, i.message = p0 ++ "...")
    ∧ (∀ (wf : List (String × JsonVal)) (es : List JsonVal) (fp : String) (i : Issue),
        es.length ≤ 6 → i ∈ wrapperValueCheck wf es fp →
          ¬∃ p0 : String, i.message = p0 ++ "...") := by
  refine ⟨?_, ?_, ?_⟩
  · intro item es ip i hi
    simp only [arrayElemCheck] at hi
    split at hi
    · simp at hi
    · split at hi
      · simp at hi
      · rw [List.mem_singleton] at hi
        subst hi
        exact ⟨_, rfl⟩
  · intro ps val fp es i he hlen hi
    simp only [inlineEnumCheck, he] at hi
    split at hi
    · simp at hi
    · split at hi
      · simp at hi
      · rw [List.mem_singleton] at hi
        subst hi
        exact not_dots_of_getLast_ne _ (by
          rw [show (Issue.mk "INVALID_ENUM" fp (enumMsgCond val es)).message
              = enumMsgCond val es from rfl]
          rw [enumMsgCond_getLast val es hlen]
          decide)
  · intro wf es fp i hlen hi
    simp only [wrapperValueCheck] at hi
    split at hi
    · simp at hi
    · split at hi
      · simp at hi
      · rw [List.mem_singleton] at hi
        subst hi
        exact not_dots_of_getLast_ne _ (by
          rw [show (Issue.mk "INVALID_ENUM" (fp ++ ".Value")
                (enumMsgCond ((lookupFirst wf "Value").getD JsonVal.null) es)).message
              = enumMsgCond ((lookupFirst wf "Value").getD JsonVal.null) es from rfl]
          rw [enumMsgCond_getLast _ es hlen]
          decide)

/-- Witness for C10 on a two-value enum: the array branch still appends
the ellipsis, the inline branch does not. -/
theorem c10_array_ellipsis_unconditional_witness :
    (∃ p0 : String,
      (Issue.mk "INVALID_ENUM" "TradeItem.Children[1]"
        (enumMsgDots (JsonVal.str "Z") [JsonVal.str "X", JsonVal.str "Y"])).message
        = p0 ++ "...")
    ∧ ¬∃ p0 : String,
      (Issue.mk "INVALID_ENUM" "TradeItem.Status"
        (enumMsgCond (JsonVal.str "Z") [JsonVal.str "X", JsonVal.str "Y"])).message
        = p0 ++ "..." := by
  constructor
  · exact c10_array_ellipsis_unconditional.1 (JsonVal.str "Z")
      [JsonVal.str "X", JsonVal.str "Y"] "TradeItem.Children[1]" _ (by
        rw [show arrayElemCheck (JsonVal.str "Z") [JsonVal.str "X", JsonVal.str "Y"]
            "TradeItem.Children[1]"
            = [Issue.mk "INVALID_ENUM" "TradeItem.Children[1]"
                (enumMsgDots (JsonVal.str "Z") [JsonVal.str "X", JsonVal.str "Y"])] from rfl]
        exact List.mem_singleton.mpr rfl)
  · exact c10_array_ellipsis_unconditional.2.1
      (PropSpec.mk none (some [JsonVal.str "X", JsonVal.str "Y"]) none none)
      (JsonVal.str "Z") "TradeItem.Status" [JsonVal.str "X", JsonVal.str "Y"] _
      rfl (by decide) (by
        rw [show inlineEnumCheck
            (PropSpec.mk none (some [JsonVal.str "X", JsonVal.str "Y"]) none none)
            (JsonVal.str "Z") "TradeItem.Status"
            = [Issue.mk "INVALID_ENUM" "TradeItem.Status"
                (enumMsgCond (JsonVal.str "Z") [JsonVal.str "X", JsonVal.str "Y"])] from rfl]
        exact List.mem_singleton.mpr rfl)

/-! ## Lemmas about schema-index construction -/

/-- A freshly appended assignment is what the lookup returns for its key. -/
theorem indexGet_append_last (ix : List (String × String)) (k v : String) :
    indexGet (ix ++ [(k, v)]) k = some v := by
  simp [indexGet, List.reverse_append, List.find?_cons]

/-- Appending an assignment for a different key leaves a lookup unchanged. -/
theorem indexGet_append_ne (ix : List (String × String)) (k v s : String)
    (h : (k == s) = false) :
    indexGet (ix ++ [(k, v)]) s = indexGet ix s := by
  simp [indexGet, List.reverse_append, List.find?_cons, h]

/-- Key membership in the assignment list agrees with lookup success. -/
theorem containsKey_eq_isSome_indexGet (ix : List (String × String)) (s : String) :
    containsKey ix s = (indexGet ix s).isSome := by
  rw [Bool.eq_iff_iff]
  simp [containsKey, indexGet, List.find?_isSome, List.mem_reverse, List.mem_map,
    beq_iff_eq]

/-- One build iteration, watched through the lookup of the short name the
iterated definition carries: it evolves by stepS. -/
theorem indexGet_insertStep_same (index : List (String × String)) (nd : String × Defn)
    (s : String) (hs : shortNameStr nd.1 = s) :
    indexGet (insertStep index nd) s = stepS (indexGet index s) nd.1 := by
  subst hs
  rw [insertStep, stepS, containsKey_eq_isSome_indexGet]
  cases hstd : containsStd nd.1 <;> cases hget : indexGet index (shortNameStr nd.1) <;>
    simp [hstd, hget, indexGet_append_last]

/-- One build iteration leaves lookups of other short names unchanged. -/
theorem indexGet_insertStep_other (index : List (String × String)) (nd : String × Defn)
    (s : String) (hs : (shortNameStr nd.1 == s) = false) :
    indexGet (insertStep index nd) s = indexGet index s := by
  rw [insertStep]
  by_cases hc : (containsStd nd.1 || !(containsKey index (shortNameStr nd.1))) = true
  · rw [if_pos hc]
    exact indexGet_append_ne index _ nd.1 s hs
  · rw [if_neg hc]

/-- Looking a short name up in the built index is the stepS-fold over the
subsequence of definition names carrying that short name. -/
theorem indexGet_foldl_insertStep (defs : List (String × Defn))
    (index : List (String × String)) (s : String) :
    indexGet (List.foldl insertStep index defs) s
      = List.foldl stepS (indexGet index s)
          ((defs.map Prod.fst).filter (fun n => shortNameStr n == s)) := by
  induction defs generalizing index with
  | nil => rfl
  | cons nd rest ih =>
    rw [List.foldl_cons, List.map_cons, List.filter_cons]
    cases hs : (shortNameStr nd.1 == s)
    · rw [if_neg (by simp), ih, indexGet_insertStep_other index nd s hs]
    · rw [if_pos rfl, List.foldl_cons, ih,
        indexGet_insertStep_same index nd s (beq_iff_eq.mp hs)]

/-- Names with other short names contribute nothing to the filtered
subsequence for s. -/
theorem filter_shortName_nil (s : String) (l : List (String × Defn))
    (hl : ∀ nd ∈ l, shortNameStr nd.1 ≠ s) :
    (l.map Prod.fst).filter (fun n => shortNameStr n == s) = [] := by
  induction l with
  | nil => rfl
  | cons nd rest ih =>
    rw [List.map_cons, List.filter_cons,
      if_neg (by simp [hl nd (List.mem_cons_self nd rest)])]
    exact ih (fun m hm => hl m (List.mem_cons_of_mem nd hm))

/-- Looking up s in the index built over exactly two definitions with
short name s reduces to two stepS steps. -/
theorem indexGet_build_two (pre mid post : List (String × Defn))
    (x y : String × Defn) (s : String)
    (hx : shortNameStr x.1 = s) (hy : shortNameStr y.1 = s)
    (hrest : ∀ nd ∈ pre ++ mid ++ post, shortNameStr nd.1 ≠ s) :
    indexGet (build_schema_index (pre ++ x :: mid ++ y :: post)) s
      = stepS (stepS none x.1) y.1 := by
  rw [build_schema_index, indexGet_foldl_insertStep]
  have h1 := filter_shortName_nil s pre (fun nd h => hrest nd (by simp [h]))
  have h2 := filter_shortName_nil s mid (fun nd h => hrest nd (by simp [h]))
  have h3 := filter_shortName_nil s post (fun nd h => hrest nd (by simp [h]))
  simp [List.map_append, List.map_cons, List.filter_append, List.filter_cons,
    h1, h2, h3, hx, hy]
  rfl

/-- Claim C2 (amended): build_schema_index performs the dict assignment
whenever the current name contains the Standard marker or the short name
is unseen, so the lookup of a short name is the stepS-fold over the names
carrying it (first conjunct); and when exactly two definitions carry a
short name, exactly one of them marked Standard, the lookup returns the
marked full name in either iteration order (second conjunct). -/
theorem c2_index_standard_priority :
    (∀ (defs : List (String × Defn)) (s : String),
        indexGet (build_schema_index defs) s
          = List.foldl stepS none
              ((defs.map Prod.fst).filter (fun n => shortNameStr n == s)))
    ∧ (∀ (pre mid post : List (String × Defn)) (a b : String × Defn) (s : String),
        shortNameStr a.1 = s → shortNameStr b.1 = s →
        containsStd a.1 = true → containsStd b.1 = false →
        (∀ nd ∈ pre ++ mid ++ post, shortNameStr nd.1 ≠ s) →
        indexGet (build_schema_index (pre ++ a :: mid ++ b :: post)) s = some a.1
        ∧ indexGet (build_schema_index (pre ++ b :: mid ++ a :: post)) s = some a.1) := by
  constructor
  · intro defs s
    rw [build_schema_index, indexGet_foldl_insertStep]
    rfl
  · intro pre mid post a b s ha hb hstda hstdb hrest
    constructor
    · rw [indexGet_build_two pre mid post a b s ha hb hrest]
      simp [stepS, hstda, hstdb]
    · rw [indexGet_build_two pre mid post b a s hb ha hrest]
      simp [stepS, hstda, hstdb]

/-- Counterexample to C2 as stated: with two Standard-marked names sharing
the short name X, the code overwrites the existing Standard entry (last one
wins), while the claimed insertion rule would keep the first; the built
indexes differ. -/
theorem c2_counterexample_both_standard :
    indexGet (build_schema_index
        [("A.Standard.X", Defn.mk [] none), ("B.Standard.X", Defn.mk [] none)]) "X"
      = some "B.Standard.X"
    ∧ indexGet (build_schema_index_claim
        [("A.Standard.X", Defn.mk [] none), ("B.Standard.X", Defn.mk [] none)]) "X"
      = some "A.Standard.X"
    ∧ build_schema_index
        [("A.Standard.X", Defn.mk [] none), ("B.Standard.X", Defn.mk [] none)]
      ≠ build_schema_index_claim
        [("A.Standard.X", Defn.mk [] none), ("B.Standard.X", Defn.mk [] none)] := by
  refine ⟨rfl, rfl, by decide⟩

/-- Witness for C2 (amended), on concrete two-definition schemas in both
iteration orders. -/
theorem c2_index_standard_priority_witness :
    indexGet (build_schema_index
        [("NS.Standard.Item", Defn.mk [] none), ("NS.Other.Item", Defn.mk [] none)]) "Item"
      = some "NS.Standard.Item"
    ∧ indexGet (build_schema_index
        [("NS.Other.Item", Defn.mk [] none), ("NS.Standard.Item", Defn.mk [] none)]) "Item"
      = some "NS.Standard.Item" := by
  have h := c2_index_standard_priority.2 [] [] []
    ("NS.Standard.Item", Defn.mk [] none) ("NS.Other.Item", Defn.mk [] none) "Item"
    (by rfl) (by rfl) (by rfl) (by rfl) (by intro nd h; simp at h)
  exact ⟨h.1, h.2⟩

/-! ## Lemmas for the fuel-bounded validator (termination of validate) -/

/-- An array element is at most as deep as the list bound. -/
theorem jdepth_le_jdepthList (v : JsonVal) (items : List JsonVal) (h : v ∈ items) :
    jdepth v ≤ jdepthList items := by
  induction items with
  | nil => cases h
  | cons a rest ih =>
    rw [jdepthList]
    rcases List.mem_cons.mp h with h1 | h2
    · subst h1; exact Nat.le_max_left _ _
    · exact Nat.le_trans (ih h2) (Nat.le_max_right _ _)

/-- A field value is at most as deep as the field-list bound. -/
theorem jdepth_le_jdepthFields (kv : String × JsonVal)
    (fields : List (String × JsonVal)) (h : kv ∈ fields) :
    jdepth kv.2 ≤ jdepthFields fields := by
  induction fields with
  | nil => cases h
  | cons a rest ih =>
    obtain ⟨k0, v0⟩ := a
    rw [jdepthFields]
    rcases List.mem_cons.mp h with h1 | h2
    · subst h1; exact Nat.le_max_left _ _
    · exact Nat.le_trans (ih h2) (Nat.le_max_right _ _)

/-- The fuel-bounded items loop agrees with validateItems when every item
is within the remaining budget. -/
theorem validateItemsFuel_eq (vr : Validator) (f : Nat) (cd : String)
    (enumOpt : Option (List JsonVal)) (items : List JsonVal) (i : Nat) (fp : String)
    (IH : ∀ (v' : JsonVal) (dn' p' : String), jdepth v' < f →
      validateFuel vr f v' dn' p' = some (validate vr v' dn' p'))
    (hb : ∀ it ∈ items, jdepth it < f) :
    validateItemsFuel vr f cd enumOpt items i fp
      = some (validateItems vr cd enumOpt items i fp) := by
  induction items generalizing i with
  | nil => rw [validateItemsFuel.eq_def, validateItems.eq_def]
  | cons item rest ih =>
    have ih2 := ih (i + 1) (fun it hit => hb it (List.mem_cons_of_mem item hit))
    rw [validateItemsFuel.eq_def, validateItems.eq_def]
    cases enumOpt with
    | some es => simp only [ih2]
    | none =>
      cases item with
      | obj ofs =>
        have hIH := IH (JsonVal.obj ofs) cd (fp ++ "[" ++ toString i ++ "]")
          (hb (JsonVal.obj ofs) (List.mem_cons_self _ _))
        simp only [ih2, hIH]
      | null => simp only [ih2]
      | bool b => simp only [ih2]
      | int n => simp only [ih2]
      | float q => simp only [ih2]
      | str s => simp only [ih2]
      | arr l => simp only [ih2]

/-- The fuel-bounded reference and array branches agree with refOrArray
when the field value is within the remaining budget. -/
theorem refOrArrayFuel_eq (vr : Validator) (f : Nat) (ps : PropSpec) (val : JsonVal)
    (fp : String)
    (IH : ∀ (v' : JsonVal) (dn' p' : String), jdepth v' < f →
      validateFuel vr f v' dn' p' = some (validate vr v' dn' p'))
    (hv : jdepth val < f) :
    refOrArrayFuel vr f ps val fp = some (refOrArray vr ps val fp) := by
  obtain ⟨t, en, rr, ir⟩ := ps
  rw [refOrArrayFuel.eq_def, refOrArray.eq_def]
  simp only []
  cases rr with
  | some rs =>
    cases val with
    | obj wf =>
      cases hcd : optTruthy (resolve vr rs) with
      | none => simp only [hcd]
      | some cd =>
        cases hen : enumTruthy (get_enum vr cd) with
        | some es => simp only [hcd, hen]
        | none =>
          have hrec := IH (JsonVal.obj wf) cd fp hv
          simp only [hcd, hen, hrec]
    | arr items =>
      have hitems : ∀ it ∈ items, jdepth it < f := by
        intro it hit
        have h1 := jdepth_le_jdepthList it items hit
        have h2 : jdepth (JsonVal.arr items) = 1 + jdepthList items := by rw [jdepth]
        omega
      cases t with
      | none => rfl
      | some t0 =>
        simp only []
        by_cases ht : (t0 == "array") = true
        · rw [if_pos ht, if_pos ht]
          cases ir with
          | none => rfl
          | some irv =>
            cases hcd : optTruthy (resolve vr irv) with
            | none => simp only [hcd]
            | some cd =>
              simp only [hcd,
                validateItemsFuel_eq vr f cd (enumTruthy (get_enum vr cd)) items 0 fp IH hitems]
        · rw [if_neg ht, if_neg ht]
    | null => rfl
    | bool b => rfl
    | int n => rfl
    | float q => rfl
    | str s => rfl
  | none =>
    cases val with
    | arr items =>
      have hitems : ∀ it ∈ items, jdepth it < f := by
        intro it hit
        have h1 := jdepth_le_jdepthList it items hit
        have h2 : jdepth (JsonVal.arr items) = 1 + jdepthList items := by rw [jdepth]
        omega
      cases t with
      | none => rfl
      | some t0 =>
        simp only []
        by_cases ht : (t0 == "array") = true
        · rw [if_pos ht, if_pos ht]
          cases ir with
          | none => rfl
          | some irv =>
            cases hcd : optTruthy (resolve vr irv) with
            | none => simp only [hcd]
            | some cd =>
              simp only [hcd,
                validateItemsFuel_eq vr f cd (enumTruthy (get_enum vr cd)) items 0 fp IH hitems]
        · rw [if_neg ht, if_neg ht]
    | obj wf => rfl
    | null => rfl
    | bool b => rfl
    | int n => rfl
    | float q => rfl
    | str s => rfl

/-- The fuel-bounded field loop agrees with validateFields when every
field value is within the remaining budget. -/
theorem validateFieldsFuel_eq (vr : Validator) (f : Nat) (r : String)
    (props : List (String × PropSpec)) (fields : List (String × JsonVal))
    (path : String)
    (IH : ∀ (v' : JsonVal) (dn' p' : String), jdepth v' < f →
      validateFuel vr f v' dn' p' = some (validate vr v' dn' p'))
    (hb : ∀ kv ∈ fields, jdepth kv.2 < f) :
    validateFieldsFuel vr f r props fields path
      = some (validateFields vr r props fields path) := by
  induction fields with
  | nil => rw [validateFieldsFuel.eq_def, validateFields.eq_def]
  | cons kv rest ih =>
    obtain ⟨key, val⟩ := kv
    have ih2 := ih (fun m hm => hb m (List.mem_cons_of_mem _ hm))
    have hval : jdepth val < f := hb (key, val) (List.mem_cons_self _ _)
    rw [validateFieldsFuel.eq_def, validateFields.eq_def]
    cases hf : props.find? (fun p => p.1 == key) with
    | none => simp only [hf, ih2]
    | some pr =>
      have hro := refOrArrayFuel_eq vr f pr.2 val
        (if path == "" then key else path ++ "." ++ key) IH hval
      simp only [hf, hro, ih2]

/-- Claim C9: for every schema, cyclic or not, the recursion of validate is
bounded by the document depth alone: with any fuel exceeding the depth of
the value, the fuel-bounded validator never exhausts its budget and
computes exactly validate.  In particular validate is a total function of
the document, terminating on schema graphs with cycles. -/
theorem c9_validate_depth_bounded (fuel : Nat) (vr : Validator) (v : JsonVal)
    (dn path : String) (h : jdepth v < fuel) :
    validateFuel vr fuel v dn path = some (validate vr v dn path) := by
  induction fuel generalizing vr v dn path with
  | zero => exact absurd h (Nat.not_lt_zero _)
  | succ f IH =>
    rw [validateFuel.eq_def, validate.eq_def]
    simp only []
    cases hres : optTruthy (resolvedName vr dn) with
    | none => simp only [hres]
    | some r =>
      cases v with
      | obj fields =>
        have hb : ∀ kv ∈ fields, jdepth kv.2 < f := by
          intro kv hkv
          have h1 := jdepth_le_jdepthFields kv fields hkv
          have h2 : jdepth (JsonVal.obj fields) = 1 + jdepthFields fields := by rw [jdepth]
          omega
        simp only [hres,
          validateFieldsFuel_eq vr f r (get_props vr r) fields path
            (fun v' dn' p' hv => IH vr v' dn' p' hv) hb]
      | null => simp only [hres]
      | bool b => simp only [hres]
      | int n => simp only [hres]
      | float q => simp only [hres]
      | str s => simp only [hres]
      | arr l => simp only [hres]

/-- Witness for C9: a depth-one document needs only two units of fuel. -/
theorem c9_validate_depth_bounded_witness :
    validateFuel wVr 2 (JsonVal.obj [("GTIN", JsonVal.str "123")]) "TradeItem" ""
      = some (validate wVr (JsonVal.obj [("GTIN", JsonVal.str "123")]) "TradeItem" "") :=
  c9_validate_depth_bounded 2 wVr (JsonVal.obj [("GTIN", JsonVal.str "123")])
    "TradeItem" "" (by decide)

/-! ## Lemmas about normalized paths -/

/-- Every element kept by takeWhile satisfies the predicate. -/
theorem mem_takeWhile_pred {α : Type} (p : α → Bool) (l : List α) :
    ∀ x ∈ l.takeWhile p, p x = true := by
  induction l with
  | nil => intro x hx; cases hx
  | cons a rest ih =>
    by_cases ha : p a = true
    · rw [List.takeWhile_cons_of_pos ha]
      intro x hx
      rcases List.mem_cons.mp hx with h1 | h2
      · subst h1; exact ha
      · exact ih x h2
    · rw [List.takeWhile_cons_of_neg ha]
      intro x hx; cases hx

/-- If dropWhile leaves nothing, every element satisfies the predicate. -/
theorem all_of_dropWhile_nil {α : Type} (p : α → Bool) (l : List α)
    (h : l.dropWhile p = []) : ∀ x ∈ l, p x = true := by
  induction l with
  | nil => intro x hx; cases hx
  | cons a rest ih =>
    by_cases ha : p a = true
    · rw [List.dropWhile_cons_of_pos ha] at h
      intro x hx
      rcases List.mem_cons.mp hx with h1 | h2
      · subst h1; exact ha
      · exact ih h x h2
    · rw [List.dropWhile_cons_of_neg ha] at h
      cases h

/-- takeWhile keeps a list all of whose elements satisfy the predicate. -/
theorem takeWhile_eq_self_of_all {α : Type} (p : α → Bool) (l : List α)
    (h : ∀ x ∈ l, p x = true) : l.takeWhile p = l := by
  induction l with
  | nil => rfl
  | cons a rest ih =>
    rw [List.takeWhile_cons_of_pos (h a (List.mem_cons_self a rest))]
    rw [ih (fun x hx => h x (List.mem_cons_of_mem a hx))]

/-- dropWhile drops a list all of whose elements satisfy the predicate. -/
theorem dropWhile_eq_nil_of_all {α : Type} (p : α → Bool) (l : List α)
    (h : ∀ x ∈ l, p x = true) : l.dropWhile p = [] := by
  induction l with
  | nil => rfl
  | cons a rest ih =>
    rw [List.dropWhile_cons_of_pos (h a (List.mem_cons_self a rest))]
    exact ih (fun x hx => h x (List.mem_cons_of_mem a hx))

/-- The first element surviving dropWhile fails the predicate. -/
theorem head_dropWhile_neg {α : Type} (p : α → Bool) (l : List α) (qh : α) (qt : List α)
    (h : l.dropWhile p = qh :: qt) : p qh = false := by
  induction l with
  | nil => cases h
  | cons a rest ih =>
    by_cases ha : p a = true
    · rw [List.dropWhile_cons_of_pos ha] at h
      exact ih h
    · rw [List.dropWhile_cons_of_neg ha] at h
      injection h with h1 h2
      subst h1
      cases hb : p a
      · rfl
      · exact absurd hb ha

/-- takeWhile walks through an all-satisfying prefix. -/
theorem takeWhile_append_of_all {α : Type} (p : α → Bool) (l m : List α)
    (h : ∀ x ∈ l, p x = true) : (l ++ m).takeWhile p = l ++ m.takeWhile p := by
  induction l with
  | nil => rfl
  | cons a rest ih =>
    rw [List.cons_append, List.takeWhile_cons_of_pos (h a (List.mem_cons_self a rest)),
      ih (fun x hx => h x (List.mem_cons_of_mem a hx))]
    rfl

/-- dropWhile walks through an all-satisfying prefix. -/
theorem dropWhile_append_of_all {α : Type} (p : α → Bool) (l m : List α)
    (h : ∀ x ∈ l, p x = true) : (l ++ m).dropWhile p = m.dropWhile p := by
  induction l with
  | nil => rfl
  | cons a rest ih =>
    rw [List.cons_append, List.dropWhile_cons_of_pos (h a (List.mem_cons_self a rest)),
      ih (fun x hx => h x (List.mem_cons_of_mem a hx))]

/-- takeWhile stops inside the first list if that list makes it stop. -/
theorem takeWhile_append_of_stop {α : Type} (p : α → Bool) (l m : List α)
    (h : l.dropWhile p ≠ []) : (l ++ m).takeWhile p = l.takeWhile p := by
  induction l with
  | nil => exact absurd rfl h
  | cons a rest ih =>
    by_cases ha : p a = true
    · rw [List.dropWhile_cons_of_pos ha] at h
      rw [List.cons_append, List.takeWhile_cons_of_pos ha,
        List.takeWhile_cons_of_pos ha, ih h]
    · rw [List.cons_append, List.takeWhile_cons_of_neg ha, List.takeWhile_cons_of_neg ha]

/-- dropWhile stops inside the first list if that list makes it stop. -/
theorem dropWhile_append_of_stop {α : Type} (p : α → Bool) (l m : List α)
    (h : l.dropWhile p ≠ []) : (l ++ m).dropWhile p = l.dropWhile p ++ m := by
  induction l with
  | nil => exact absurd rfl h
  | cons a rest ih =>
    by_cases ha : p a = true
    · rw [List.dropWhile_cons_of_pos ha] at h
      rw [List.cons_append, List.dropWhile_cons_of_pos ha, List.dropWhile_cons_of_pos ha,
        ih h]
    · rw [List.cons_append, List.dropWhile_cons_of_neg ha, List.dropWhile_cons_of_neg ha]
      rfl

/-- normSub leaves the empty path empty. -/
theorem normSub_nil : normSub [] = [] := by rw [normSub]

/-- normSub passes a non-bracket character through. -/
theorem normSub_cons_ne (c : Char) (rest : List Char) (h : (c == '[') = false) :
    normSub (c :: rest) = c :: normSub rest := by
  rw [normSub, if_neg (by simp [h])]

/-- A digit is not an opening bracket. -/
theorem digit_ne_bracket (c : Char) (h : Char.isDigit c = true) : (c == '[') = false := by
  cases hb : c == '['
  · rfl
  · have hc : c = '[' := beq_iff_eq.mp hb
    subst hc
    exact absurd h (by decide)

/-- normSub passes a digit run through unchanged. -/
theorem normSub_digits_pass (ds q : List Char)
    (h : ∀ x ∈ ds, Char.isDigit x = true) :
    normSub (ds ++ q) = ds ++ normSub q := by
  induction ds with
  | nil => rfl
  | cons a rest ih =>
    rw [List.cons_append,
      normSub_cons_ne a _ (digit_ne_bracket a (h a (List.mem_cons_self a rest))),
      ih (fun x hx => h x (List.mem_cons_of_mem a hx))]
    rfl

/-- At an opening bracket that is not followed by a digit run closed by a
bracket, normSub keeps the bracket and scans on. -/
theorem normSub_bracket_noMatch (rest : List Char)
    (hcond : (rest.takeWhile Char.isDigit).isEmpty = true
      ∨ ((rest.dropWhile Char.isDigit).head? == some ']') = false) :
    normSub ('[' :: rest) = '[' :: normSub rest := by
  rw [normSub, if_pos (show ('[' == '[') = true from rfl)]
  by_cases hT : (rest.takeWhile Char.isDigit).isEmpty = true
  · rw [if_pos hT]
  · rcases hcond with h1 | h2
    · exact absurd h1 hT
    · rw [if_neg hT, if_neg (by simp [h2])]

/-- At an opening bracket followed by a nonempty digit run and a closing
bracket, normSub emits the wildcard and continues after the closer. -/
theorem normSub_bracket_match (rest : List Char)
    (hT : (rest.takeWhile Char.isDigit).isEmpty = false)
    (hh : (rest.dropWhile Char.isDigit).head? = some ']') :
    normSub ('[' :: rest)
      = '[' :: '*' :: ']' :: normSub (rest.dropWhile Char.isDigit).tail := by
  rw [normSub, if_pos (show ('[' == '[') = true from rfl), if_neg (by simp [hT]),
    if_pos (by simp [hh])]

/-- normSub of a bracketed nonempty digit run closed by a bracket. -/
theorem normSub_bracket_digits (d b : List Char) (hd : d ≠ [])
    (hdig : ∀ x ∈ d, Char.isDigit x = true) :
    normSub ('[' :: (d ++ ']' :: b)) = '[' :: '*' :: ']' :: normSub b := by
  have ht : (d ++ ']' :: b).takeWhile Char.isDigit = d := by
    rw [takeWhile_append_of_all _ d _ hdig, List.takeWhile_cons_of_neg (by decide),
      List.append_nil]
  have hw : (d ++ ']' :: b).dropWhile Char.isDigit = ']' :: b := by
    rw [dropWhile_append_of_all _ d _ hdig, List.dropWhile_cons_of_neg (by decide)]
  rw [normSub_bracket_match (d ++ ']' :: b)
    (by rw [ht]; cases d with | nil => exact absurd rfl hd | cons x xs => rfl)
    (by rw [hw]; rfl)]
  rw [hw]
  rfl

/-- normSub splits around a bracketed integer index: the index becomes the
wildcard and the surrounding text is normalized independently. -/
theorem normSub_slot_aux (n : Nat) :
    ∀ (a : List Char), a.length ≤ n → ∀ (d b : List Char), d ≠ [] →
      (∀ x ∈ d, Char.isDigit x = true) →
      normSub (a ++ '[' :: (d ++ ']' :: b))
        = normSub a ++ '[' :: '*' :: ']' :: normSub b := by
  induction n with
  | zero =>
    intro a ha d b hd hdig
    have ha0 : a = [] := List.length_eq_zero.mp (Nat.le_zero.mp ha)
    subst ha0
    rw [List.nil_append, normSub_nil, List.nil_append]
    exact normSub_bracket_digits d b hd hdig
  | succ m IH =>
    intro a ha d b hd hdig
    cases a with
    | nil =>
      rw [List.nil_append, normSub_nil, List.nil_append]
      exact normSub_bracket_digits d b hd hdig
    | cons c a' =>
      have ha' : a'.length ≤ m := by
        simp only [List.length_cons] at ha
        omega
      by_cases hc : (c == '[') = true
      · have hc2 : c = '[' := beq_iff_eq.mp hc
        subst hc2
        rw [List.cons_append]
        by_cases hq : a'.dropWhile Char.isDigit = []
        · have hall : ∀ x ∈ a', Char.isDigit x = true := all_of_dropWhile_nil _ a' hq
          have ht : (a' ++ '[' :: (d ++ ']' :: b)).takeWhile Char.isDigit = a' := by
            rw [takeWhile_append_of_all _ a' _ hall, List.takeWhile_cons_of_neg (by decide),
              List.append_nil]
          have hw : (a' ++ '[' :: (d ++ ']' :: b)).dropWhile Char.isDigit
              = '[' :: (d ++ ']' :: b) := by
            rw [dropWhile_append_of_all _ a' _ hall, List.dropWhile_cons_of_neg (by decide)]
          cases a' with
          | nil =>
            rw [List.nil_append,
              normSub_bracket_noMatch ('[' :: (d ++ ']' :: b)) (Or.inl (by
                rw [List.takeWhile_cons_of_neg (by decide)]; rfl)),
              normSub_bracket_digits d b hd hdig,
              normSub_bracket_noMatch [] (Or.inl rfl), normSub_nil]
            rfl
          | cons x xs =>
            rw [normSub_bracket_noMatch _ (Or.inr (by rw [hw]; rfl)),
              IH (x :: xs) ha' d b hd hdig,
              normSub_bracket_noMatch (x :: xs) (Or.inr (by rw [hq]; rfl))]
            rfl
        · obtain ⟨qh, qt, hq2⟩ : ∃ qh qt, a'.dropWhile Char.isDigit = qh :: qt := by
            cases hqq : a'.dropWhile Char.isDigit with
            | nil => exact absurd hqq hq
            | cons u v => exact ⟨u, v, rfl⟩
          have hqh : Char.isDigit qh = false := head_dropWhile_neg _ a' qh qt hq2
          have ht : (a' ++ '[' :: (d ++ ']' :: b)).takeWhile Char.isDigit
              = a'.takeWhile Char.isDigit := takeWhile_append_of_stop _ a' _ hq
          have hw : (a' ++ '[' :: (d ++ ']' :: b)).dropWhile Char.isDigit
              = qh :: (qt ++ '[' :: (d ++ ']' :: b)) := by
            rw [dropWhile_append_of_stop _ a' _ hq, hq2]
            rfl
          by_cases hT : (a'.takeWhile Char.isDigit).isEmpty = true
          · rw [normSub_bracket_noMatch _ (Or.inl (by rw [ht]; exact hT)),
              IH a' ha' d b hd hdig,
              normSub_bracket_noMatch a' (Or.inl hT)]
            rfl
          · by_cases hqh2 : qh = ']'
            · subst hqh2
              have hqtlen : qt.length ≤ m := by
                have h1 := (List.dropWhile_sublist (l := a') Char.isDigit).length_le
                rw [hq2] at h1
                simp only [List.length_cons] at h1
                omega
              rw [normSub_bracket_match _
                  (by rw [ht]; exact Bool.eq_false_iff.mpr (by simp [hT]))
                  (by rw [hw]; rfl)]
              rw [hw]
              rw [show (']' :: (qt ++ '[' :: (d ++ ']' :: b))).tail
                  = qt ++ '[' :: (d ++ ']' :: b) from rfl]
              rw [IH qt hqtlen d b hd hdig]
              rw [normSub_bracket_match a'
                  (by exact Bool.eq_false_iff.mpr (by simp [hT])) (by rw [hq2]; rfl)]
              rw [hq2]
              rfl
            · rw [normSub_bracket_noMatch _ (Or.inr (by
                  rw [hw]
                  simp [hqh2])),
                IH a' ha' d b hd hdig,
                normSub_bracket_noMatch a' (Or.inr (by
                  rw [hq2]
                  simp [hqh2]))]
              rfl
      · have hcf : (c == '[') = false := by
          cases hb : c == '['
          · rfl
          · exact absurd hb hc
        rw [List.cons_append, normSub_cons_ne c _ hcf, IH a' ha' d b hd hdig,
          normSub_cons_ne c a' hcf]
        rfl

/-- normSub keeps the first character of its input. -/
theorem normSub_cons_head (x : Char) (xs : List Char) :
    ∃ t, normSub (x :: xs) = x :: t := by
  by_cases hx : (x == '[') = true
  · have hx2 : x = '[' := beq_iff_eq.mp hx
    subst hx2
    by_cases hT : (xs.takeWhile Char.isDigit).isEmpty = true
    · exact ⟨_, normSub_bracket_noMatch xs (Or.inl hT)⟩
    · cases hh : (xs.dropWhile Char.isDigit).head? with
      | none => exact ⟨_, normSub_bracket_noMatch xs (Or.inr (by rw [hh]; rfl))⟩
      | some ch =>
        by_cases hch : ch = ']'
        · subst hch
          exact ⟨_, normSub_bracket_match xs (Bool.eq_false_iff.mpr (by simp [hT])) hh⟩
        · exact ⟨_, normSub_bracket_noMatch xs (Or.inr (by rw [hh]; simp [hch]))⟩
  · have hxf : (x == '[') = false := by
      cases hb : x == '['
      · rfl
      · exact absurd hb hx
    exact ⟨_, normSub_cons_ne x xs hxf⟩

/-- normSub is idempotent. -/
theorem normSub_idem_aux (n : Nat) : ∀ l : List Char, l.length ≤ n →
    normSub (normSub l) = normSub l := by
  induction n with
  | zero =>
    intro l hl
    have h0 : l = [] := List.length_eq_zero.mp (Nat.le_zero.mp hl)
    subst h0
    rw [normSub_nil, normSub_nil]
  | succ m IH =>
    intro l hl
    cases l with
    | nil => rw [normSub_nil, normSub_nil]
    | cons c rest =>
      have hrest : rest.length ≤ m := by
        simp only [List.length_cons] at hl
        omega
      by_cases hc : (c == '[') = true
      · have hc2 : c = '[' := beq_iff_eq.mp hc
        subst hc2
        by_cases hT : (rest.takeWhile Char.isDigit).isEmpty = true
        · rw [normSub_bracket_noMatch rest (Or.inl hT)]
          have hT2 : ((normSub rest).takeWhile Char.isDigit).isEmpty = true := by
            cases rest with
            | nil => rw [normSub_nil]; rfl
            | cons x xs =>
              have hx : Char.isDigit x = false := by
                by_cases hxd : Char.isDigit x = true
                · rw [List.takeWhile_cons_of_pos hxd] at hT
                  exact absurd hT (by simp)
                · exact Bool.eq_false_iff.mpr hxd
              obtain ⟨t, hhead⟩ := normSub_cons_head x xs
              rw [hhead, List.takeWhile_cons_of_neg (by simp [hx])]
              rfl
          rw [normSub_bracket_noMatch (normSub rest) (Or.inl hT2), IH rest hrest]
        · cases hq : rest.dropWhile Char.isDigit with
          | nil =>
            have hall := all_of_dropWhile_nil _ rest hq
            rw [normSub_bracket_noMatch rest (Or.inr (by rw [hq]; rfl))]
            have hrw : normSub rest = rest := by
              have h2 := normSub_digits_pass rest [] hall
              rw [List.append_nil, normSub_nil, List.append_nil] at h2
              exact h2
            rw [hrw, normSub_bracket_noMatch rest (Or.inr (by rw [hq]; rfl)), hrw]
          | cons qh qt =>
            have hqh : Char.isDigit qh = false := head_dropWhile_neg _ rest qh qt hq
            by_cases hqh2 : qh = ']'
            · subst hqh2
              rw [normSub_bracket_match rest (Bool.eq_false_iff.mpr (by simp [hT]))
                (by rw [hq]; rfl)]
              rw [hq, show (']' :: qt).tail = qt from rfl]
              have hqtlen : qt.length ≤ m := by
                have h1 := (List.dropWhile_sublist (l := rest) Char.isDigit).length_le
                rw [hq] at h1
                simp only [List.length_cons] at h1
                omega
              rw [normSub_bracket_noMatch ('*' :: ']' :: normSub qt) (Or.inl (by
                rw [List.takeWhile_cons_of_neg (by decide)]
                rfl))]
              rw [normSub_cons_ne '*' _ (by decide), normSub_cons_ne ']' _ (by decide),
                IH qt hqtlen]
            · rw [normSub_bracket_noMatch rest (Or.inr (by rw [hq]; simp [hqh2]))]
              have hsplit : rest = rest.takeWhile Char.isDigit ++ (qh :: qt) := by
                rw [← hq, List.takeWhile_append_dropWhile]
              have hdig := mem_takeWhile_pred Char.isDigit rest
              have hns : normSub rest
                  = rest.takeWhile Char.isDigit ++ normSub (qh :: qt) := by
                conv_lhs => rw [hsplit]
                exact normSub_digits_pass _ _ hdig
              obtain ⟨t, hhead⟩ := normSub_cons_head qh qt
              have hq2len : (qh :: qt).length ≤ m := by
                have h1 := (List.dropWhile_sublist (l := rest) Char.isDigit).length_le
                rw [hq] at h1
                omega
              rw [hns]
              rw [normSub_bracket_noMatch
                  (rest.takeWhile Char.isDigit ++ normSub (qh :: qt)) (Or.inr (by
                rw [dropWhile_append_of_all _ _ _ hdig, hhead,
                  List.dropWhile_cons_of_neg (by simp [hqh]), List.head?_cons]
                simp [hqh2]))]
              rw [normSub_digits_pass _ _ hdig, IH (qh :: qt) hq2len, ← hns]
      · have hcf : (c == '[') = false := by
          cases hb : c == '['
          · rfl
          · exact absurd hb hc
        rw [normSub_cons_ne c rest hcf, normSub_cons_ne c (normSub rest) hcf,
          IH rest hrest]

/-- The slot decomposition at any prefix length. -/
theorem normSub_slot (a d b : List Char) (hd : d ≠ [])
    (hdig : ∀ x ∈ d, Char.isDigit x = true) :
    normSub (a ++ '[' :: (d ++ ']' :: b))
      = normSub a ++ '[' :: '*' :: ']' :: normSub b :=
  normSub_slot_aux a.length a (Nat.le_refl _) d b hd hdig

/-- A bracket-free character list passes through normSub unchanged. -/
theorem normSub_no_bracket (l : List Char) (h : ∀ x ∈ l, (x == '[') = false) :
    normSub l = l := by
  induction l with
  | nil => exact normSub_nil
  | cons c rest ih =>
    rw [normSub_cons_ne c rest (h c (List.mem_cons_self c rest)),
      ih (fun x hx => h x (List.mem_cons_of_mem c hx))]

/-- Rewriting one bracketed integer index does not change the normal form. -/
theorem normSub_idxStep (x y : List Char) (h : IdxStep x y) :
    normSub x = normSub y := by
  obtain ⟨a, d, e, b, hd, he, hdd, hde, hx, hy⟩ := h
  rw [hx, hy, normSub_slot a d b hd hdd, normSub_slot a e b he hde]

/-- Claim C8: normalized_path replaces every bracketed integer index by the
wildcard marker (second and fourth conjuncts), is idempotent (first
conjunct), and sends any two paths differing only in bracketed integer
indices to the same string (third conjunct). -/
theorem c8_normalized_path_props :
    (∀ p : String, normalized_path (normalized_path p) = normalized_path p)
    ∧ (∀ a d b : List Char, d ≠ [] → (∀ x ∈ d, Char.isDigit x = true) →
        normSub (a ++ '[' :: (d ++ ']' :: b))
          = normSub a ++ '[' :: '*' :: ']' :: normSub b)
    ∧ (∀ p q : String, Relation.ReflTransGen IdxStep p.data q.data →
        normalized_path p = normalized_path q)
    ∧ normalized_path "Items[3].Code" = "Items[*].Code" := by
  refine ⟨?_, ?_, ?_, ?_⟩
  · intro p
    exact congrArg String.mk (normSub_idem_aux p.data.length p.data (Nat.le_refl _))
  · exact fun a d b hd hdig => normSub_slot a d b hd hdig
  · intro p q h
    refine congrArg String.mk ?_
    have key : ∀ (x y : List Char), Relation.ReflTransGen IdxStep x y →
        normSub x = normSub y := by
      intro x y hxy
      induction hxy with
      | refl => rfl
      | tail hab hbc ih => rw [ih, normSub_idxStep _ _ hbc]
    exact key p.data q.data h
  · have h1 : ("Items[3].Code" : String).data
        = "Items".data ++ '[' :: (['3'] ++ ']' :: (".Code" : String).data) := by decide
    show String.mk (normSub ("Items[3].Code" : String).data) = "Items[*].Code"
    rw [h1, normSub_slot "Items".data ['3'] ".Code".data (by decide) (by decide),
      normSub_no_bracket "Items".data (by decide),
      normSub_no_bracket ".Code".data (by decide)]
    decide

/-- Witness for C8: the two spec examples, normalizing an index away and
identifying paths that differ only in one index. -/
theorem c8_normalized_path_props_witness :
    normalized_path "Items[0].X" = normalized_path "Items[17].X" :=
  c8_normalized_path_props.2.2.1 "Items[0].X" "Items[17].X"
    (Relation.ReflTransGen.single
      ⟨"Items".data, ['0'], ['1', '7'], ".X".data,
        by decide, by decide, by decide, by decide, by decide, by decide⟩)
